import Mathlib

/-!
Verification of the gap-filling routine `fill_nans_around` from
`petroflow/src/utils.py` against its natural-language specification.

The array of floats is modelled as a `List (Option Int)`: `none` is the NaN
("missing") marker and `some k` a valid numeric value.  The routine only ever
tests values with `np.isnan` and copies them, so an abstract payload is a
faithful model.  Machine indices become `Nat`/`Int`; numpy basic slice
assignment (step 1, with negative bounds wrapping and clamping) is modelled
explicitly by `setSlice`.  The only place the Python code can raise is the
`nan_mask[0]` / `nan_mask[-1]` access on an empty input, so the embedding
returns `Option (List Val)` with `none` exactly there.
-/

/-- A float value: `none` models NaN, `some k` a valid number. -/
abbrev Val := Option Int

/-- `np.isnan` on one value. -/
def isnan (v : Val) : Bool := v.isNone

/-- Effective index of a Python/numpy slice bound on an array of length `n`:
negative indices count from the end, and bounds are clamped to `[0, n]`. -/
def sliceIdx (n : Nat) (i : Int) : Nat :=
  if i < 0 then ((n : Int) + i).toNat else min i.toNat n

/-- Worker for slice assignment: walks the list with a position counter and
replaces the elements whose position lies in `[a, b)`. -/
def setSliceGo (a b : Nat) (v : Val) : Nat → List Val → List Val
  | _, [] => []
  | i, y :: ys => (if a ≤ i ∧ i < b then v else y) :: setSliceGo a b v (i + 1) ys

/-- numpy `x[start:stop] = v` for a scalar `v` (basic slicing, step 1). -/
def setSlice (x : List Val) (lo hi : Int) (v : Val) : List Val :=
  setSliceGo (sliceIdx x.length lo) (sliceIdx x.length hi) v 0 x

/-- `np.where` on a boolean vector: the indices holding `true`, in order,
starting from position `i`. -/
def trueIdxs : Nat → List Bool → List Nat
  | _, [] => []
  | i, b :: rest => if b then i :: trueIdxs (i + 1) rest else trueIdxs (i + 1) rest

/-- `a[::2]`: every other element, starting with the first. -/
def stride2 : List Nat → List Nat
  | [] => []
  | [x] => [x]
  | x :: _ :: rest => x :: stride2 rest

/-- `list(zip(a[::2], a[1::2]))`: consecutive pairs of a list. -/
def pairUp (l : List Nat) : List (Nat × Nat) := (stride2 l).zip (stride2 l.tail)

/-- `a[-1]` made total: the last element, `none` when the list is empty. -/
def lastElem? : List Bool → Option Bool
  | [] => none
  | [b] => some b
  | _ :: b :: rest => lastElem? (b :: rest)

/-- Lower bound of the `left_slice` of a nan interval `se = (s, e)`:
`e - min(period, len // 2)`, the part of the run filled with the value at
index `e` (its stop is `e`). -/
def leftSliceLo (period : Int) (se : Nat × Nat) : Int :=
  (se.2 : Int) - min period (((se.2 - se.1) / 2 : Nat) : Int)

/-- Upper bound of the `right_slice` of a nan interval `se = (s, e)`:
`s + min(period, len // 2 + len % 2)`, the part of the run filled with the
value at index `s - 1` (its start is `s`). -/
def rightSliceHi (period : Int) (se : Nat × Nat) : Int :=
  (se.1 : Int) + min period (((se.2 - se.1) / 2 + (se.2 - se.1) % 2 : Nat) : Int)

/-- One iteration of the fill loop for the nan interval `se = (s, e)` on the
current array `a` (`n` is the fixed array size): `left_slice`, from
`leftSliceLo` to `e`, is assigned the value at index `e` unless `e` is the
array size; then `right_slice`, from `s` to `rightSliceHi`, is assigned the
value at index `s - 1` unless `s` is `0`. -/
def fillRun (n : Nat) (period : Int) (a : List Val) (se : Nat × Nat) : List Val :=
  let s := se.1
  let e := se.2
  let a1 := if e ≠ n then setSlice a (leftSliceLo period se) (e : Int) (a.getD e none) else a
  if s ≠ 0 then setSlice a1 (s : Int) (rightSliceHi period se) (a1.getD (s - 1) none) else a1

/-- The gap-filling routine `fill_nans_around(arr, period)`:
nan-interval boundaries are found by xoring the shifted nan mask with itself,
padded with the array limits when the array starts or ends with nan; the
intervals are then filled by `fillRun`.  The Python code indexes
`nan_mask[0]` and `nan_mask[-1]`, which raises on an empty array: that is the
`none` result. -/
def fill_nans_around (arr : List Val) (period : Int) : Option (List Val) :=
  let n := arr.length
  let nan_mask := arr.map isnan
  let boundsBool := false :: List.zipWith xor nan_mask.tail nan_mask.dropLast
  let bounds0 := trueIdxs 0 boundsBool
  match nan_mask.head?, lastElem? nan_mask with
  | some m0, some mN =>
    let left_lim : List Nat := if m0 then [0] else []
    let right_lim : List Nat := if mN then [n] else []
    let bounds := left_lim ++ bounds0 ++ right_lim
    let runs := pairUp bounds
    some (runs.foldl (fillRun n period) arr)
  | _, _ => none

/-- Reference scanner for maximal nan runs: `cur = some s` means a run started
at index `s` is open, `i` is the current position. -/
def runsAux : Option Nat → Nat → List Bool → List (Nat × Nat)
  | some s, i, [] => [(s, i)]
  | none, _, [] => []
  | none, i, false :: rest => runsAux none (i + 1) rest
  | none, i, true :: rest => runsAux (some i) (i + 1) rest
  | some s, i, true :: rest => runsAux (some s) (i + 1) rest
  | some s, i, false :: rest => (s, i) :: runsAux none (i + 1) rest

/-- The maximal missing runs of an array, by a direct linear scan. -/
def nanRuns (arr : List Val) : List (Nat × Nat) := runsAux none 0 (arr.map isnan)

/-- Adjacent-xor of a boolean list against its predecessor values, seeded with
`prev`: position `j` of the result is `xor l[j] l[j-1]` (with `l[-1] = prev`). -/
def adjXor : Bool → List Bool → List Bool
  | _, [] => []
  | prev, c :: rest => xor c prev :: adjXor c rest

/-- `[s, e)` is a maximal missing run of the mask: nonempty, within bounds,
all-nan, and not extendable on either side. -/
def IsMaxRunMask (mask : List Bool) (s e : Nat) : Prop :=
  s < e ∧ e ≤ mask.length ∧ (∀ j, s ≤ j → j < e → mask.getD j false = true) ∧
    (s = 0 ∨ mask.getD (s - 1) false = false) ∧
    (e = mask.length ∨ mask.getD e false = false)

/-- `[s, e)` is a maximal missing run of the array. -/
def IsMaxRun (arr : List Val) (s e : Nat) : Prop := IsMaxRunMask (arr.map isnan) s e

instance (mask : List Bool) (s e : Nat) : Decidable (IsMaxRunMask mask s e) :=
  decidable_of_iff (s < e ∧ e ≤ mask.length ∧
      (∀ j ∈ List.range e, s ≤ j → mask.getD j false = true) ∧
      (s = 0 ∨ mask.getD (s - 1) false = false) ∧
      (e = mask.length ∨ mask.getD e false = false)) (by
    constructor
    · rintro ⟨h1, h2, h3, h4, h5⟩
      exact ⟨h1, h2, fun j hj1 hj2 => h3 j (List.mem_range.mpr hj2) hj1, h4, h5⟩
    · rintro ⟨h1, h2, h3, h4, h5⟩
      exact ⟨h1, h2, fun j hj hj1 => h3 j hj1 (List.mem_range.mp hj), h4, h5⟩)

instance (arr : List Val) (s e : Nat) : Decidable (IsMaxRun arr s e) :=
  inferInstanceAs (Decidable (IsMaxRunMask (arr.map isnan) s e))

/-- The value the algorithm leaves at position `i` of a maximal missing run
`[s, e)` when called with nonnegative period `p`: the first
`min(p, len/2 + len%2)` positions take the left neighbor value (when a left
neighbor exists), the last `min(p, len/2)` positions take the right neighbor
value (when a right neighbor exists), the middle stays missing. -/
def intendedAt (arr : List Val) (p s e i : Nat) : Val :=
  if s ≠ 0 ∧ i < s + min p ((e - s) / 2 + (e - s) % 2) then arr.getD (s - 1) none
  else if e ≠ arr.length ∧ e - min p ((e - s) / 2) ≤ i then arr.getD e none
  else none

/-! ### Basic lemmas about the slice-assignment model -/

theorem length_setSliceGo (a b : Nat) (v : Val) :
    ∀ (i : Nat) (x : List Val), (setSliceGo a b v i x).length = x.length := by
  intro i x
  induction x generalizing i with
  | nil => rfl
  | cons y ys ih => simp [setSliceGo, ih]

theorem getD_setSliceGo (a b : Nat) (v : Val) :
    ∀ (x : List Val) (i j : Nat),
    (setSliceGo a b v i x).getD j none =
      if a ≤ i + j ∧ i + j < b ∧ j < x.length then v else x.getD j none := by
  intro x
  induction x with
  | nil => intro i j; simp [setSliceGo]
  | cons y ys ih =>
    intro i j
    cases j with
    | zero =>
      simp only [setSliceGo, List.getD_cons_zero, List.length_cons]
      split_ifs with h1 h2 h2 <;> first | rfl | omega
    | succ j =>
      simp only [setSliceGo, List.getD_cons_succ, List.length_cons]
      rw [ih (i + 1) j]
      split_ifs with h1 h2 h2 <;> first | rfl | omega

theorem length_setSlice (x : List Val) (lo hi : Int) (v : Val) :
    (setSlice x lo hi v).length = x.length :=
  length_setSliceGo _ _ _ _ _

theorem getD_setSlice (x : List Val) (lo hi : Int) (v : Val) (j : Nat) :
    (setSlice x lo hi v).getD j none =
      if sliceIdx x.length lo ≤ j ∧ j < sliceIdx x.length hi ∧ j < x.length then v
      else x.getD j none := by
  unfold setSlice
  rw [getD_setSliceGo]
  simp

theorem setSliceGo_of_le (a b : Nat) (v : Val) (h : b ≤ a) :
    ∀ (i : Nat) (x : List Val), setSliceGo a b v i x = x := by
  intro i x
  induction x generalizing i with
  | nil => rfl
  | cons y ys ih =>
    simp only [setSliceGo, ih]
    rw [if_neg (by omega)]

theorem sliceIdx_natCast (n k : Nat) : sliceIdx n (k : Int) = min k n := by
  unfold sliceIdx
  rw [if_neg (by omega)]
  simp

theorem lastElem?_cons (l : List Bool) : ∀ b : Bool, lastElem? (b :: l) = some (l.getLastD b) := by
  induction l with
  | nil => intro b; rfl
  | cons c r ih => intro b; rw [List.getLastD_cons]; exact ih c

theorem zipWith_xor_dropLast (l : List Bool) :
    ∀ prev : Bool, List.zipWith xor l ((prev :: l).dropLast) = adjXor prev l := by
  induction l with
  | nil => intro prev; rfl
  | cons c r ih =>
    intro prev
    simp only [List.dropLast_cons₂, List.zipWith_cons_cons, adjXor]
    exact congrArg _ (ih c)

theorem pairUp_nil : pairUp [] = [] := rfl

theorem pairUp_cons_cons (a b : Nat) (l : List Nat) :
    pairUp (a :: b :: l) = (a, b) :: pairUp l := by
  cases l with
  | nil => rfl
  | cons c r => simp [pairUp, stride2]

theorem getD_map_isnan (l : List Val) :
    ∀ i : Nat, i < l.length → (l.map isnan).getD i false = isnan (l.getD i none) := by
  induction l with
  | nil => intro i h; simp at h
  | cons y ys ih =>
    intro i h
    cases i with
    | zero => rfl
    | succ i => simpa using ih i (by simpa using h)

theorem getD_eq_none_of_isnan (l : List Val) (i : Nat) (h : i < l.length)
    (hm : (l.map isnan).getD i false = true) : l.getD i none = none := by
  rw [getD_map_isnan l i h] at hm
  exact Option.isNone_iff_eq_none.mp hm

/-! ### The xor/where/zip pipeline detects exactly the maximal nan runs -/

theorem pairUp_bounds (l : List Bool) :
    ∀ (prev : Bool) (i : Nat) (cur : Option Nat) (pend : List Nat),
    (match cur with
     | some s => pend = [s] ∧ prev = true
     | none => pend = [] ∧ prev = false) →
    pairUp (pend ++ trueIdxs i (adjXor prev l) ++
      (if l.getLastD prev then [i + l.length] else [])) = runsAux cur i l := by
  induction l with
  | nil =>
    intro prev i cur pend hpc
    cases cur with
    | some s =>
      obtain ⟨hp, hv⟩ := hpc
      subst hp hv
      simp [adjXor, trueIdxs, runsAux, pairUp_cons_cons, pairUp_nil]
    | none =>
      obtain ⟨hp, hv⟩ := hpc
      subst hp hv
      simp [adjXor, trueIdxs, runsAux, pairUp_nil]
  | cons c r ih =>
    intro prev i cur pend hpc
    have hlast : (c :: r).getLastD prev = r.getLastD c := List.getLastD_cons prev c r
    have hlen : i + (c :: r).length = (i + 1) + r.length := by simp; omega
    cases cur with
    | some s =>
      obtain ⟨hp, hv⟩ := hpc
      subst hp hv
      cases c with
      | true =>
        simp only [adjXor, Bool.xor_true, Bool.not_true, trueIdxs, hlast, hlen]
        show pairUp ([s] ++ trueIdxs (i + 1) (adjXor true r) ++ _) = _
        rw [ih true (i + 1) (some s) [s] ⟨rfl, rfl⟩]
        rfl
      | false =>
        simp only [adjXor, Bool.xor_false, hlast, hlen]
        show pairUp ([s] ++ (i :: trueIdxs (i + 1) (adjXor false r)) ++ _) = _
        have : [s] ++ (i :: trueIdxs (i + 1) (adjXor false r)) ++
            (if r.getLastD false then [(i + 1) + r.length] else []) =
            s :: i :: ([] ++ trueIdxs (i + 1) (adjXor false r) ++
              (if r.getLastD false then [(i + 1) + r.length] else [])) := by simp
        rw [this, pairUp_cons_cons, ih false (i + 1) none [] ⟨rfl, rfl⟩]
        rfl
    | none =>
      obtain ⟨hp, hv⟩ := hpc
      subst hp hv
      cases c with
      | true =>
        simp only [adjXor, Bool.xor_false, trueIdxs, hlast, hlen]
        show pairUp ([] ++ (i :: trueIdxs (i + 1) (adjXor true r)) ++ _) = _
        have : [] ++ (i :: trueIdxs (i + 1) (adjXor true r)) ++
            (if r.getLastD true then [(i + 1) + r.length] else []) =
            [i] ++ trueIdxs (i + 1) (adjXor true r) ++
              (if r.getLastD true then [(i + 1) + r.length] else []) := by simp
        rw [this, ih true (i + 1) (some i) [i] ⟨rfl, rfl⟩]
        rfl
      | false =>
        simp only [adjXor, Bool.xor_false, trueIdxs, hlast, hlen]
        show pairUp ([] ++ trueIdxs (i + 1) (adjXor false r) ++ _) = _
        rw [ih false (i + 1) none [] ⟨rfl, rfl⟩]
        rfl

/-- On a nonempty array the routine succeeds and is the fold of `fillRun`
over the maximal nan runs found by the direct scan. -/
theorem fill_eq_foldl (v : Val) (rest : List Val) (period : Int) :
    fill_nans_around (v :: rest) period =
      some ((nanRuns (v :: rest)).foldl (fillRun (v :: rest).length period) (v :: rest)) := by
  unfold fill_nans_around nanRuns
  simp only [List.map_cons, List.head?_cons, lastElem?_cons, List.tail_cons]
  rw [zipWith_xor_dropLast (rest.map isnan) (isnan v)]
  have htrue : trueIdxs 0 (false :: adjXor (isnan v) (rest.map isnan)) =
      trueIdxs 1 (adjXor (isnan v) (rest.map isnan)) := by simp [trueIdxs]
  rw [htrue]
  have hlen : (v :: rest).length = 1 + (rest.map isnan).length := by simp; omega
  cases hv : isnan v with
  | true =>
    rw [show (if true = true then [(0 : Nat)] else []) = [0] from rfl]
    rw [hlen, pairUp_bounds (rest.map isnan) true 1 (some 0) [0] ⟨rfl, rfl⟩]
    have : runsAux none 0 (true :: rest.map isnan) = runsAux (some 0) 1 (rest.map isnan) := rfl
    rw [this]
  | false =>
    rw [show (if false = true then [(0 : Nat)] else []) = ([] : List Nat) from rfl]
    rw [hlen, pairUp_bounds (rest.map isnan) false 1 none [] ⟨rfl, rfl⟩]
    have : runsAux none 0 (false :: rest.map isnan) = runsAux none 1 (rest.map isnan) := rfl
    rw [this]

/-! ### Soundness and completeness of the run scanner -/

theorem runsAux_sound (mask : List Bool) :
    ∀ (l : List Bool) (i : Nat) (cur : Option Nat),
    i + l.length = mask.length →
    (∀ j, mask.getD (i + j) false = l.getD j false) →
    (∀ s, cur = some s → s < i ∧ (∀ j, s ≤ j → j < i → mask.getD j false = true) ∧
        (s = 0 ∨ mask.getD (s - 1) false = false)) →
    (cur = none → i = 0 ∨ mask.getD (i - 1) false = false) →
    ∀ se ∈ runsAux cur i l, IsMaxRunMask mask se.1 se.2 := by
  intro l
  induction l with
  | nil =>
    intro i cur hlen hpt hsome _ se hse
    cases cur with
    | none => simp [runsAux] at hse
    | some s =>
      simp only [runsAux, List.mem_singleton] at hse
      subst hse
      obtain ⟨h1, h2, h3⟩ := hsome s rfl
      have hi : i = mask.length := by simpa using hlen
      exact ⟨h1, by omega, h2, h3, Or.inl hi⟩
  | cons c r ih =>
    intro i cur hlen hpt hsome hnone se hse
    have hmi : mask.getD i false = c := by simpa using hpt 0
    have hlen' : (i + 1) + r.length = mask.length := by simp at hlen; omega
    have hpt' : ∀ j, mask.getD ((i + 1) + j) false = r.getD j false := by
      intro j
      have := hpt (j + 1)
      simpa [Nat.add_assoc, Nat.add_comm 1 j] using this
    cases cur with
    | none =>
      cases c with
      | false =>
        refine ih (i + 1) none hlen' hpt' (by intro s h; cases h) ?_ se hse
        intro _
        right
        simpa using hmi
      | true =>
        refine ih (i + 1) (some i) hlen' hpt' ?_ (by intro h; cases h) se hse
        intro s hs
        cases hs
        refine ⟨Nat.lt_succ_self i, ?_, ?_⟩
        · intro j hj1 hj2
          have : j = i := by omega
          subst this
          exact hmi.trans rfl
        · simpa using hnone rfl
    | some s =>
      obtain ⟨hsi, helems, hbnd⟩ := hsome s rfl
      cases c with
      | true =>
        refine ih (i + 1) (some s) hlen' hpt' ?_ (by intro h; cases h) se hse
        intro s' hs'
        cases hs'
        refine ⟨by omega, ?_, hbnd⟩
        intro j hj1 hj2
        rcases Nat.lt_or_ge j i with h | h
        · exact helems j hj1 h
        · have : j = i := by omega
          subst this
          exact hmi.trans rfl
      | false =>
        simp only [runsAux, List.mem_cons] at hse
        rcases hse with hse | hse
        · subst hse
          refine ⟨hsi, by omega, helems, hbnd, Or.inr ?_⟩
          simpa using hmi
        · refine ih (i + 1) none hlen' hpt' (by intro s' h; cases h) ?_ se hse
          intro _
          right
          simpa using hmi

theorem runsAux_complete (mask : List Bool) :
    ∀ (l : List Bool) (i : Nat) (cur : Option Nat),
    i + l.length = mask.length →
    (∀ j, mask.getD (i + j) false = l.getD j false) →
    ∀ jj, (match cur with | some s => s ≤ jj | none => i ≤ jj) → jj < mask.length →
      mask.getD jj false = true →
      ∃ se ∈ runsAux cur i l, se.1 ≤ jj ∧ jj < se.2 := by
  intro l
  induction l with
  | nil =>
    intro i cur hlen hpt jj hc hj _
    cases cur with
    | none =>
      exfalso
      simp at hlen
      omega
    | some s => exact ⟨(s, i), by simp [runsAux], hc, by simp at hlen; omega⟩
  | cons c r ih =>
    intro i cur hlen hpt jj hc hj hv
    have hmi : mask.getD i false = c := by simpa using hpt 0
    have hlen' : (i + 1) + r.length = mask.length := by simp at hlen; omega
    have hpt' : ∀ j, mask.getD ((i + 1) + j) false = r.getD j false := by
      intro j
      have := hpt (j + 1)
      simpa [Nat.add_assoc, Nat.add_comm 1 j] using this
    cases cur with
    | none =>
      cases c with
      | false =>
        have hij : i ≠ jj := by
          intro h
          rw [← h, hmi] at hv
          cases hv
        exact ih (i + 1) none hlen' hpt' jj (by simp at hc ⊢; omega) hj hv
      | true =>
        exact ih (i + 1) (some i) hlen' hpt' jj (by simpa using hc) hj hv
    | some s =>
      cases c with
      | true =>
        exact ih (i + 1) (some s) hlen' hpt' jj hc hj hv
      | false =>
        rcases Nat.lt_or_ge jj i with h | h
        · exact ⟨(s, i), by simp [runsAux], hc, h⟩
        · have hij : i ≠ jj := by
            intro hh
            rw [← hh, hmi] at hv
            cases hv
          obtain ⟨se, hmem, hcov⟩ :=
            ih (i + 1) none hlen' hpt' jj (by omega) hj hv
          exact ⟨se, by simp [runsAux, hmem], hcov⟩

/-- Two maximal runs through a common point coincide. -/
theorem IsMaxRunMask.eq_of_common (mask : List Bool) (s e a b j : Nat)
    (h1 : IsMaxRunMask mask s e) (h2 : IsMaxRunMask mask a b)
    (hj1 : s ≤ j) (hj2 : j < e) (hj3 : a ≤ j) (hj4 : j < b) : s = a ∧ e = b := by
  obtain ⟨-, he1, helem1, hl1, hr1⟩ := h1
  obtain ⟨-, he2, helem2, hl2, hr2⟩ := h2
  constructor
  · rcases Nat.lt_trichotomy s a with h | h | h
    · exfalso
      rcases hl2 with h0 | hfalse
      · omega
      · have := helem1 (a - 1) (by omega) (by omega)
        rw [this] at hfalse
        cases hfalse
    · exact h
    · exfalso
      rcases hl1 with h0 | hfalse
      · omega
      · have := helem2 (s - 1) (by omega) (by omega)
        rw [this] at hfalse
        cases hfalse
  · rcases Nat.lt_trichotomy e b with h | h | h
    · exfalso
      rcases hr1 with h0 | hfalse
      · omega
      · have := helem2 e (by omega) (by omega)
        rw [this] at hfalse
        cases hfalse
    · exact h
    · exfalso
      rcases hr2 with h0 | hfalse
      · omega
      · have := helem1 b (by omega) (by omega)
        rw [this] at hfalse
        cases hfalse

/-- Every maximal nan run of the array is found by the scan. -/
theorem mem_nanRuns_of_isMaxRun (arr : List Val) (s e : Nat) (h : IsMaxRun arr s e) :
    (s, e) ∈ nanRuns arr := by
  have hh := h
  obtain ⟨hse, hlen, helem, -, -⟩ := hh
  obtain ⟨se', hmem, hcov1, hcov2⟩ :=
    runsAux_complete (arr.map isnan) (arr.map isnan) 0 none (by simp) (by simp)
      s (Nat.zero_le s) (by omega) (helem s le_rfl hse)
  have hmax : IsMaxRunMask (arr.map isnan) se'.1 se'.2 :=
    runsAux_sound (arr.map isnan) (arr.map isnan) 0 none (by simp) (by simp)
      (by intro s' h'; cases h') (fun _ => Or.inl rfl) se' hmem
  obtain ⟨hs, he⟩ := IsMaxRunMask.eq_of_common (arr.map isnan) se'.1 se'.2 s e s
    hmax h hcov1 hcov2 le_rfl hse
  have heq : se' = (s, e) := by
    cases se'
    simp only [Prod.mk.injEq]
    exact ⟨hs, he⟩
  rwa [heq] at hmem

/-- Every run found by the scan is a maximal nan run. -/
theorem isMaxRun_of_mem_nanRuns (arr : List Val) (se : Nat × Nat)
    (h : se ∈ nanRuns arr) : IsMaxRun arr se.1 se.2 :=
  runsAux_sound (arr.map isnan) (arr.map isnan) 0 none (by simp) (by simp)
    (by intro s' h'; cases h') (fun _ => Or.inl rfl) se h

/-! ### Pointwise characterization of one fill-loop iteration -/

theorem getD_setSlice_natCast (x : List Val) (aN bN : Nat) (v : Val) (j : Nat) :
    (setSlice x (aN : Int) (bN : Int) v).getD j none =
      if aN ≤ j ∧ j < bN ∧ j < x.length then v else x.getD j none := by
  rw [getD_setSlice, sliceIdx_natCast, sliceIdx_natCast]
  split_ifs with h1 h2 h2 <;> first | rfl | omega

theorem fillRun_length (n : Nat) (period : Int) (a : List Val) (se : Nat × Nat) :
    (fillRun n period a se).length = a.length := by
  unfold fillRun
  dsimp only
  split_ifs <;> simp [length_setSlice]

theorem foldl_fillRun_length (n : Nat) (period : Int) :
    ∀ (R : List (Nat × Nat)) (a : List Val),
    (R.foldl (fillRun n period) a).length = a.length := by
  intro R
  induction R with
  | nil => intro a; rfl
  | cons r R ih =>
    intro a
    rw [List.foldl_cons, ih, fillRun_length]

theorem getD_fillRun (p : Nat) (n s e : Nat) (hse : s < e) (hen : e ≤ n)
    (a : List Val) (ha : a.length = n) (j : Nat) :
    (fillRun n (p : Int) a (s, e)).getD j none =
      if s ≠ 0 ∧ s ≤ j ∧ j < s + min p ((e - s) / 2 + (e - s) % 2) then a.getD (s - 1) none
      else if e ≠ n ∧ e - min p ((e - s) / 2) ≤ j ∧ j < e then a.getD e none
      else a.getD j none := by
  have hm1 : min p ((e - s) / 2) ≤ (e - s) / 2 := Nat.min_le_right _ _
  have hm2 : min p ((e - s) / 2 + (e - s) % 2) ≤ (e - s) / 2 + (e - s) % 2 :=
    Nat.min_le_right _ _
  have hcastL : leftSliceLo (p : Int) (s, e) = ((e - min p ((e - s) / 2) : Nat) : Int) := by
    unfold leftSliceLo
    dsimp only
    rw [← Nat.cast_min]
    omega
  have hcastR : rightSliceHi (p : Int) (s, e) =
      ((s + min p ((e - s) / 2 + (e - s) % 2) : Nat) : Int) := by
    unfold rightSliceHi
    dsimp only
    rw [← Nat.cast_min]
    omega
  unfold fillRun
  dsimp only
  rw [hcastL, hcastR]
  have hA : ∀ k, (if e ≠ n then
        setSlice a ((e - min p ((e - s) / 2) : Nat) : Int) (e : Int) (a.getD e none)
      else a).getD k none =
      if e ≠ n ∧ e - min p ((e - s) / 2) ≤ k ∧ k < e then a.getD e none
      else a.getD k none := by
    intro k
    by_cases he : e = n
    · simp [he]
    · rw [if_pos he, getD_setSlice_natCast]
      split_ifs with h1 h2 h2 <;> first | rfl | omega
  have hAlen : (if e ≠ n then
        setSlice a ((e - min p ((e - s) / 2) : Nat) : Int) (e : Int) (a.getD e none)
      else a).length = n := by
    split_ifs
    · rw [length_setSlice, ha]
    · exact ha
  have hAs1 : (if e ≠ n then
        setSlice a ((e - min p ((e - s) / 2) : Nat) : Int) (e : Int) (a.getD e none)
      else a).getD (s - 1) none = a.getD (s - 1) none := by
    rw [hA]
    rw [if_neg (by omega)]
  by_cases hs : s ≠ 0
  · rw [if_pos hs, getD_setSlice_natCast, hAlen, hAs1, hA j]
    split_ifs with h1 h2 h3 h3 h4 h4 <;> first | rfl | omega
  · rw [if_neg hs, hA j]
    split_ifs with h1 h2 h3 h3 <;> first | rfl | omega

/-! ### Characterization of the whole fill fold -/

theorem foldl_fillRun_valid (arr : List Val) (p : Nat) :
    ∀ (R : List (Nat × Nat)) (a : List Val),
    (∀ r ∈ R, IsMaxRunMask (arr.map isnan) r.1 r.2) →
    a.length = arr.length →
    (∀ i, i < arr.length → (arr.map isnan).getD i false = false →
      a.getD i none = arr.getD i none) →
    ∀ i, i < arr.length → (arr.map isnan).getD i false = false →
      (R.foldl (fillRun arr.length (p : Int)) a).getD i none = arr.getD i none := by
  intro R
  induction R with
  | nil => intro a _ _ hvalid i hi hm; exact hvalid i hi hm
  | cons r R ih =>
    intro a hR ha hvalid i hi hm
    obtain ⟨s', e'⟩ := r
    rw [List.foldl_cons]
    have hr := hR (s', e') (List.mem_cons_self _ _)
    obtain ⟨hse', hlen', helem', -, -⟩ := hr
    have hlen2 : e' ≤ arr.length := by simpa using hlen'
    have hm1 : min p ((e' - s') / 2) ≤ (e' - s') / 2 := Nat.min_le_right _ _
    have hm2 : min p ((e' - s') / 2 + (e' - s') % 2) ≤ (e' - s') / 2 + (e' - s') % 2 :=
      Nat.min_le_right _ _
    refine ih (fillRun arr.length (p : Int) a (s', e'))
      (fun r' hr' => hR r' (List.mem_cons_of_mem _ hr'))
      (by rw [fillRun_length, ha]) ?_ i hi hm
    intro k hk hmk
    have hkout : k < s' ∨ e' ≤ k := by
      by_contra hcon
      push_neg at hcon
      have := helem' k (by omega) (by omega)
      rw [hmk] at this
      cases this
    rw [getD_fillRun p arr.length s' e' hse' hlen2 a ha k,
      if_neg (by omega), if_neg (by omega)]
    exact hvalid k hk hmk

theorem intendedAt_eq_left (arr : List Val) (p s e i : Nat)
    (h : s ≠ 0 ∧ i < s + min p ((e - s) / 2 + (e - s) % 2)) :
    intendedAt arr p s e i = arr.getD (s - 1) none := by
  unfold intendedAt
  rw [if_pos h]

theorem intendedAt_eq_right (arr : List Val) (p s e i : Nat)
    (h1 : ¬(s ≠ 0 ∧ i < s + min p ((e - s) / 2 + (e - s) % 2)))
    (h2 : e ≠ arr.length ∧ e - min p ((e - s) / 2) ≤ i) :
    intendedAt arr p s e i = arr.getD e none := by
  unfold intendedAt
  rw [if_neg h1, if_pos h2]

theorem intendedAt_eq_none (arr : List Val) (p s e i : Nat)
    (h1 : ¬(s ≠ 0 ∧ i < s + min p ((e - s) / 2 + (e - s) % 2)))
    (h2 : ¬(e ≠ arr.length ∧ e - min p ((e - s) / 2) ≤ i)) :
    intendedAt arr p s e i = none := by
  unfold intendedAt
  rw [if_neg h1, if_neg h2]

theorem foldl_fillRun_char (arr : List Val) (p : Nat) (s e : Nat)
    (hstar : IsMaxRunMask (arr.map isnan) s e) :
    ∀ (R : List (Nat × Nat)) (d : Bool) (a : List Val),
    (∀ r ∈ R, IsMaxRunMask (arr.map isnan) r.1 r.2) →
    a.length = arr.length →
    (∀ i, i < arr.length → (arr.map isnan).getD i false = false →
      a.getD i none = arr.getD i none) →
    (∀ i, s ≤ i → i < e →
      a.getD i none = if d then intendedAt arr p s e i else none) →
    ∀ i, s ≤ i → i < e →
      (R.foldl (fillRun arr.length (p : Int)) a).getD i none =
        if d || decide ((s, e) ∈ R) then intendedAt arr p s e i else none := by
  have hstar' := hstar
  obtain ⟨hse, hlen, helem, hbndL, hbndR⟩ := hstar'
  have hlenE : e ≤ arr.length := by simpa using hlen
  intro R
  induction R with
  | nil =>
    intro d a _ _ _ hrun i h1 h2
    simpa using hrun i h1 h2
  | cons r R ih =>
    intro d a hR ha hvalid hrun i h1 h2
    obtain ⟨s', e'⟩ := r
    rw [List.foldl_cons]
    have hr := hR (s', e') (List.mem_cons_self _ _)
    have hr2 := hr
    obtain ⟨hse', hlen', helem', hbndL', hbndR'⟩ := hr2
    have hlen2 : e' ≤ arr.length := by simpa using hlen'
    have hm1 : min p ((e' - s') / 2) ≤ (e' - s') / 2 := Nat.min_le_right _ _
    have hm2 : min p ((e' - s') / 2 + (e' - s') % 2) ≤ (e' - s') / 2 + (e' - s') % 2 :=
      Nat.min_le_right _ _
    have ha' : (fillRun arr.length (p : Int) a (s', e')).length = arr.length := by
      rw [fillRun_length, ha]
    have hvalid' : ∀ k, k < arr.length → (arr.map isnan).getD k false = false →
        (fillRun arr.length (p : Int) a (s', e')).getD k none = arr.getD k none := by
      intro k hk hmk
      have hkout : k < s' ∨ e' ≤ k := by
        by_contra hcon
        push_neg at hcon
        have := helem' k (by omega) (by omega)
        rw [hmk] at this
        cases this
      rw [getD_fillRun p arr.length s' e' hse' hlen2 a ha k,
        if_neg (by omega), if_neg (by omega)]
      exact hvalid k hk hmk
    by_cases hre : (s', e') = (s, e)
    · have hs1 : s' = s := congrArg Prod.fst hre
      have he1 : e' = e := congrArg Prod.snd hre
      subst hs1
      subst he1
      have hrun' : ∀ k, s' ≤ k → k < e' →
          (fillRun arr.length (p : Int) a (s', e')).getD k none =
            if (true : Bool) then intendedAt arr p s' e' k else none := by
        intro k hk1 hk2
        rw [if_pos rfl]
        rw [getD_fillRun p arr.length s' e' hse hlenE a ha k]
        by_cases hD1 : s' ≠ 0 ∧ k < s' + min p ((e' - s') / 2 + (e' - s') % 2)
        · rw [if_pos ⟨hD1.1, hk1, hD1.2⟩, intendedAt_eq_left arr p s' e' k hD1]
          have hmaskL : (arr.map isnan).getD (s' - 1) false = false := by
            rcases hbndL with h0 | hf
            · exact absurd h0 hD1.1
            · exact hf
          exact hvalid (s' - 1) (by omega) hmaskL
        · rw [if_neg (fun hc => hD1 ⟨hc.1, hc.2.2⟩)]
          by_cases hD2 : e' ≠ arr.length ∧ e' - min p ((e' - s') / 2) ≤ k
          · rw [if_pos ⟨hD2.1, hD2.2, hk2⟩,
              intendedAt_eq_right arr p s' e' k hD1 hD2]
            have hmaskR : (arr.map isnan).getD e' false = false := by
              rcases hbndR with h0 | hf
              · exact absurd (by simpa using h0) hD2.1
              · exact hf
            exact hvalid e' (by omega) hmaskR
          · rw [if_neg (fun hc => hD2 ⟨hc.1, hc.2.1⟩),
              intendedAt_eq_none arr p s' e' k hD1 hD2]
            rw [hrun k hk1 hk2]
            cases d with
            | true =>
              simp only [if_pos]
              exact intendedAt_eq_none arr p s' e' k hD1 hD2
            | false => rfl
      have := ih true (fillRun arr.length (p : Int) a (s', e'))
        (fun r' hr' => hR r' (List.mem_cons_of_mem _ hr'))
        ha' hvalid' hrun' i h1 h2
      rw [this]
      have hmem : ((s', e') ∈ (s', e') :: R) := List.mem_cons_self _ _
      simp [hmem]
    · have hout : ∀ k, s ≤ k → k < e → k < s' ∨ e' ≤ k := by
        intro k hk1 hk2
        by_contra hcon
        push_neg at hcon
        obtain ⟨hh1, hh2⟩ := IsMaxRunMask.eq_of_common (arr.map isnan) s' e' s e k
          hr hstar (by omega) (by omega) hk1 hk2
        exact hre (by rw [hh1, hh2])
      have hrun' : ∀ k, s ≤ k → k < e →
          (fillRun arr.length (p : Int) a (s', e')).getD k none =
            if d then intendedAt arr p s e k else none := by
        intro k hk1 hk2
        have hkout := hout k hk1 hk2
        rw [getD_fillRun p arr.length s' e' hse' hlen2 a ha k,
          if_neg (by omega), if_neg (by omega)]
        exact hrun k hk1 hk2
      have := ih d (fillRun arr.length (p : Int) a (s', e'))
        (fun r' hr' => hR r' (List.mem_cons_of_mem _ hr'))
        ha' hvalid' hrun' i h1 h2
      rw [this]
      have hmemiff : ((s, e) ∈ (s', e') :: R) ↔ ((s, e) ∈ R) := by
        simp only [List.mem_cons]
        constructor
        · rintro (h | h)
          · exact absurd h.symm hre
          · exact h
        · exact Or.inr
      rw [decide_eq_decide.mpr hmemiff]

/-! ### Top-level characterization of the routine -/

theorem fill_nans_around_nil (period : Int) : fill_nans_around [] period = none := rfl

theorem fill_valid (arr out : List Val) (p : Nat)
    (hout : fill_nans_around arr (p : Int) = some out) :
    out.length = arr.length ∧
      (∀ i, i < arr.length → isnan (arr.getD i none) = false →
        out.getD i none = arr.getD i none) := by
  cases arr with
  | nil => rw [fill_nans_around_nil] at hout; cases hout
  | cons v rest =>
    rw [fill_eq_foldl v rest (p : Int)] at hout
    have hout' := Option.some.inj hout
    subst hout'
    refine ⟨foldl_fillRun_length _ _ _ _, ?_⟩
    intro i hi hval
    rw [foldl_fillRun_valid (v :: rest) p (nanRuns (v :: rest)) (v :: rest)
      (fun r hr => isMaxRun_of_mem_nanRuns _ r hr) rfl (fun _ _ _ => rfl) i hi
      ((getD_map_isnan (v :: rest) i hi).trans hval)]

theorem fill_run_char (arr out : List Val) (p : Nat)
    (hout : fill_nans_around arr (p : Int) = some out)
    (s e : Nat) (hstar : IsMaxRun arr s e) :
    ∀ i, s ≤ i → i < e → out.getD i none = intendedAt arr p s e i := by
  cases arr with
  | nil => rw [fill_nans_around_nil] at hout; cases hout
  | cons v rest =>
    rw [fill_eq_foldl v rest (p : Int)] at hout
    have hout' := Option.some.inj hout
    subst hout'
    intro i h1 h2
    have hstar' := hstar
    obtain ⟨hse, hlen, helem, -, -⟩ := hstar'
    have hrun0 : ∀ k, s ≤ k → k < e →
        ((v :: rest) : List Val).getD k none =
          if (false : Bool) then intendedAt (v :: rest) p s e k else none := by
      intro k hk1 hk2
      rw [if_neg (by simp)]
      exact getD_eq_none_of_isnan (v :: rest) k (by simp at hlen ⊢; omega)
        (helem k hk1 hk2)
    have := foldl_fillRun_char (v :: rest) p s e hstar (nanRuns (v :: rest)) false
      (v :: rest) (fun r hr => isMaxRun_of_mem_nanRuns _ r hr) rfl
      (fun _ _ _ => rfl) hrun0 i h1 h2
    rw [this]
    have hmem : (s, e) ∈ nanRuns (v :: rest) :=
      mem_nanRuns_of_isMaxRun (v :: rest) s e hstar
    simp [hmem]

theorem fill_length_any (arr out : List Val) (period : Int)
    (hout : fill_nans_around arr period = some out) : out.length = arr.length := by
  cases arr with
  | nil => rw [fill_nans_around_nil] at hout; cases hout
  | cons v rest =>
    rw [fill_eq_foldl v rest period] at hout
    have hout' := Option.some.inj hout
    subst hout'
    exact foldl_fillRun_length _ _ _ _

theorem runsAux_eq_nil : ∀ (l : List Bool) (i : Nat),
    (∀ b ∈ l, b = false) → runsAux none i l = [] := by
  intro l
  induction l with
  | nil => intro i _; rfl
  | cons c r ih =>
    intro i h
    have hc : c = false := h c (List.mem_cons_self _ _)
    subst hc
    exact ih (i + 1) (fun b hb => h b (List.mem_cons_of_mem _ hb))

/-! ### Further helper lemmas for the claims -/

theorem fillRun_zero (n : Nat) (a : List Val) (se : Nat × Nat) : fillRun n 0 a se = a := by
  have h1 : leftSliceLo 0 se = (se.2 : Int) := by
    unfold leftSliceLo
    omega
  have h2 : rightSliceHi 0 se = (se.1 : Int) := by
    unfold rightSliceHi
    omega
  have hid : ∀ (x : List Val) (t : Int) (w : Val), setSlice x t t w = x := by
    intro x t w
    unfold setSlice
    exact setSliceGo_of_le _ _ _ le_rfl 0 x
  unfold fillRun
  dsimp only
  rw [h1, h2]
  split_ifs <;> simp [hid]

theorem setSliceGo_comm (a1 b1 a2 b2 : Nat) (u w : Val) (hd : b2 ≤ a1 ∨ b1 ≤ a2) :
    ∀ (i : Nat) (x : List Val),
    setSliceGo a2 b2 w i (setSliceGo a1 b1 u i x) =
      setSliceGo a1 b1 u i (setSliceGo a2 b2 w i x) := by
  intro i x
  induction x generalizing i with
  | nil => rfl
  | cons y ys ih =>
    simp only [setSliceGo]
    refine congrArg₂ _ ?_ (ih (i + 1))
    split_ifs <;> first | rfl | omega

theorem setSlice_comm (x : List Val) (lo1 hi1 lo2 hi2 : Int) (u w : Val)
    (hd : sliceIdx x.length hi2 ≤ sliceIdx x.length lo1 ∨
      sliceIdx x.length hi1 ≤ sliceIdx x.length lo2) :
    setSlice (setSlice x lo1 hi1 u) lo2 hi2 w =
      setSlice (setSlice x lo2 hi2 w) lo1 hi1 u := by
  unfold setSlice
  rw [length_setSliceGo, length_setSliceGo]
  exact setSliceGo_comm _ _ _ _ u w hd 0 x

/-! ### The claims -/

/-- C1, counterexample to the claim as stated: for the sequence `[1, NaN, 2]`
with period `1`, the single missing run `[1, 2)` has odd length `1` and
touches neither boundary; the claim predicts `right_count = min(1, 1) = 1`
positions ending at `e = 2` set to the value at index `2`, i.e. the output
`[1, 2, 2]`.  The code instead gives the extra unit to the left side and
produces `[1, 1, 2]`. -/
theorem C1_counterexample :
    fill_nans_around [some 1, none, some 2] 1 ≠ some [some 1, some 2, some 2] ∧
    fill_nans_around [some 1, none, some 2] 1 = some [some 1, some 1, some 2] := by
  constructor
  · decide
  · decide

/-- C1, amended: for every detected maximal missing run `[s, e)` of odd
length `L = e - s` touching neither boundary, the fill split gives the extra
unit to the LEFT side: exactly `left_count = min(period, L - L / 2)` positions
starting at `s` are set to the value at index `s - 1`, exactly
`right_count = min(period, L / 2)` positions ending at `e` are set to the
value at index `e`, and the positions in between remain missing. -/
theorem C1_amended_split (arr out : List Val) (p : Nat) (s e : Nat)
    (hout : fill_nans_around arr (p : Int) = some out)
    (hrun : IsMaxRun arr s e) (hs : 0 < s) (he : e < arr.length)
    (hodd : (e - s) % 2 = 1) :
    (∀ i, s ≤ i → i < s + min p ((e - s) - (e - s) / 2) →
      out.getD i none = arr.getD (s - 1) none) ∧
    (∀ i, e - min p ((e - s) / 2) ≤ i → i < e → out.getD i none = arr.getD e none) ∧
    (∀ i, s + min p ((e - s) - (e - s) / 2) ≤ i → i < e - min p ((e - s) / 2) →
      out.getD i none = none) := by
  have hchar := fill_run_char arr out p hout s e hrun
  obtain ⟨hse, hlen, helem, hbl, hbr⟩ := hrun
  have hlenE : e ≤ arr.length := by simpa using hlen
  have hm1 : min p ((e - s) / 2) ≤ (e - s) / 2 := Nat.min_le_right _ _
  have hm2 : min p ((e - s) / 2 + (e - s) % 2) ≤ (e - s) / 2 + (e - s) % 2 :=
    Nat.min_le_right _ _
  have hceil : (e - s) - (e - s) / 2 = (e - s) / 2 + (e - s) % 2 := by omega
  rw [hceil]
  refine ⟨?_, ?_, ?_⟩
  · intro i hi1 hi2
    rw [hchar i hi1 (by omega)]
    exact intendedAt_eq_left arr p s e i ⟨by omega, hi2⟩
  · intro i hi1 hi2
    rw [hchar i (by omega) hi2]
    exact intendedAt_eq_right arr p s e i (by omega) ⟨by omega, hi1⟩
  · intro i hi1 hi2
    rw [hchar i (by omega) (by omega)]
    exact intendedAt_eq_none arr p s e i (by omega) (by omega)

/-- C1, witness: the amended claim applied to `[1, NaN, NaN, NaN, 5]` with
period `1` and the run `[1, 4)`: position `1` takes the left value `1`,
position `3` takes the right value `5`, position `2` stays missing. -/
theorem C1_amended_witness :
    ([some 1, some 1, none, some 5, some 5] : List Val).getD 1 none = some 1 ∧
    ([some 1, some 1, none, some 5, some 5] : List Val).getD 3 none = some 5 ∧
    ([some 1, some 1, none, some 5, some 5] : List Val).getD 2 none = none := by
  have h := C1_amended_split [some 1, none, none, none, some 5]
    [some 1, some 1, none, some 5, some 5] 1 1 4 (by decide) (by decide) (by decide)
    (by decide) (by decide)
  exact ⟨(h.1 1 (by decide) (by decide)).trans (by decide),
    (h.2.1 3 (by decide) (by decide)).trans (by decide),
    h.2.2 2 (by decide) (by decide)⟩

/-- C2, counterexample to the claim as stated: on
`[NaN, NaN, 1, NaN, NaN, NaN, 2, NaN]` with period `1` the code does NOT
return `[NaN, 1, 1, 1, NaN, 2, 2, NaN]`: the trailing length-1 run at index
`7` is filled from its left neighbor, not left missing. -/
theorem C2_counterexample :
    fill_nans_around [none, none, some 1, none, none, none, some 2, none] 1 ≠
      some [none, some 1, some 1, some 1, none, some 2, some 2, none] := by
  decide

/-- C2, amended: for the input sequence
`[NaN, NaN, 1, NaN, NaN, NaN, 2, NaN]` with period `1`, fill returns exactly
`[NaN, 1, 1, 1, NaN, 2, 2, 2]`; in particular the trailing length-1 run at
index `7`, which touches the sequence end, is filled with the value `2` of
its left neighbor. -/
theorem C2_actual_output :
    fill_nans_around [none, none, some 1, none, none, none, some 2, none] 1 =
      some [none, some 1, some 1, some 1, none, some 2, some 2, some 2] := by
  decide

/-- C3: on the docstring pattern `__1___23_4___` (underscores missing) with
period `1` the fill returns exactly the pattern `_111_223344__`. -/
theorem C3_docstring_example :
    fill_nans_around
      [none, none, some 1, none, none, none, some 2, some 3, none, some 4,
        none, none, none] 1 =
      some [none, some 1, some 1, some 1, none, some 2, some 2, some 3, some 3,
        some 4, some 4, none, none] := by
  decide

/-- C4, counterexample to the claim as stated: with period `-1` on
`[1, NaN, 2]` the call does not fail at all — it succeeds and returns the
input unchanged.  There is no `InvalidArgument` (or any other) validation of
the period in the code: a negative period merely produces empty fill
slices. -/
theorem C4_counterexample :
    fill_nans_around [some 1, none, some 2] (-1) = some [some 1, none, some 2] := by
  decide

/-- C4, amended: calling fill with a negative period does not fail: on every
non-empty sequence the call succeeds and produces an output sequence. -/
theorem C4_no_failure (arr : List Val) (period : Int)
    (hne : arr ≠ []) (hneg : period < 0) :
    (fill_nans_around arr period).isSome = true := by
  cases arr with
  | nil => exact absurd rfl hne
  | cons v rest =>
    rw [fill_eq_foldl v rest period]
    rfl

/-- C4, witness: the amended claim at the concrete sequence `[1, NaN, 2]`
and period `-1`. -/
theorem C4_witness : (fill_nans_around [some 1, none, some 2] (-1)).isSome = true :=
  C4_no_failure [some 1, none, some 2] (-1) (by decide) (by decide)

/-- C5, counterexample to the claim as stated: on the empty sequence with
period `1` the call does not succeed with the empty sequence — the code
indexes `nan_mask[0]`, which raises on an empty array. -/
theorem C5_counterexample : fill_nans_around [] 1 ≠ some [] := by decide

/-- C5, amended: called on the empty sequence with any non-negative period,
fill fails (the access `nan_mask[0]` is out of bounds) and returns no
sequence at all. -/
theorem C5_empty_always_fails (period : Int) (hp : 0 ≤ period) :
    fill_nans_around [] period = none := rfl

/-- C5, witness: the amended claim at period `1`. -/
theorem C5_witness : fill_nans_around [] 1 = none :=
  C5_empty_always_fails 1 (by decide)

/-- C6, counterexample to the claim as stated: for
`seq = [1, NaN, NaN, NaN, NaN, 2]` and period `1`, one application gives
`m = [1, 1, NaN, NaN, 2, 2]`, whose only remaining missing run `[2, 4)` has
length `2 = 2 * period` — so no run longer than `2 * period` remains — yet a
second application fills that run further and returns
`[1, 1, 1, 2, 2, 2] ≠ m`. -/
theorem C6_counterexample :
    fill_nans_around [some 1, none, none, none, none, some 2] 1 =
      some [some 1, some 1, none, none, some 2, some 2] ∧
    (∀ r ∈ nanRuns [some 1, some 1, none, none, some 2, some 2], r.2 - r.1 ≤ 2 * 1) ∧
    fill_nans_around [some 1, some 1, none, none, some 2, some 2] 1 ≠
      some [some 1, some 1, none, none, some 2, some 2] := by
  refine ⟨by decide, by decide, by decide⟩

/-- C6, amended: applying fill twice with the same period gives the same
result once no missing value remains at all after the first application:
if `fill(seq, period) = out` and `out` has no missing value, then
`fill(out, period) = out`. -/
theorem C6_idempotent_once_filled (seq out : List Val) (period : Int)
    (h1 : fill_nans_around seq period = some out)
    (h2 : ∀ v ∈ out, v.isSome = true) :
    fill_nans_around out period = some out := by
  have hlen := fill_length_any seq out period h1
  have hseqne : seq ≠ [] := by
    intro h
    subst h
    rw [fill_nans_around_nil] at h1
    cases h1
  have houtpos : 0 < out.length := by
    rw [hlen]
    cases seq with
    | nil => exact absurd rfl hseqne
    | cons v rest => simp
  cases out with
  | nil => simp at houtpos
  | cons w ws =>
    rw [fill_eq_foldl w ws period]
    have hmask : ∀ b ∈ ((w :: ws) : List Val).map isnan, b = false := by
      intro b hb
      rw [List.mem_map] at hb
      obtain ⟨v, hv, rfl⟩ := hb
      have := h2 v hv
      cases v with
      | none => cases this
      | some k => rfl
    have hnil : nanRuns (w :: ws) = [] := runsAux_eq_nil _ 0 hmask
    rw [hnil]
    rfl

/-- C6, witness: `fill([1, NaN, NaN, 2], 1) = [1, 1, 2, 2]` has no missing
value left, and a second application returns it unchanged. -/
theorem C6_witness :
    fill_nans_around [some 1, some 1, some 2, some 2] 1 =
      some [some 1, some 1, some 2, some 2] :=
  C6_idempotent_once_filled [some 1, none, none, some 2]
    [some 1, some 1, some 2, some 2] 1 (by decide) (by decide)

/-- C7: whenever fill produces an output, the output has the same length as
the input, and every position holding a valid (non-missing) value in the
input holds that same value in the output.  (Fill produces an output exactly
on non-empty inputs; the empty-input failure is claim C5.) -/
theorem C7_preserved (arr out : List Val) (p : Nat)
    (hout : fill_nans_around arr (p : Int) = some out) :
    out.length = arr.length ∧
      ∀ i v, arr.getD i none = some v → out.getD i none = some v := by
  obtain ⟨hl, hv⟩ := fill_valid arr out p hout
  refine ⟨hl, ?_⟩
  intro i v hiv
  have hilt : i < arr.length := by
    by_contra hcon
    rw [List.getD_eq_default _ _ (by omega)] at hiv
    cases hiv
  rw [hv i hilt (by rw [hiv]; rfl), hiv]

/-- C7, witness: `fill([3, NaN], 1) = [3, 3]` preserves the length and the
valid value at position `0`. -/
theorem C7_witness :
    ([some 3, some 3] : List Val).length = ([some 3, none] : List Val).length ∧
    ([some 3, some 3] : List Val).getD 0 none = some 3 := by
  have h := C7_preserved [some 3, none] [some 3, some 3] 1 (by decide)
  exact ⟨h.1, h.2 0 3 (by decide)⟩

/-- C8: whenever fill with period `0` produces an output, the output equals
the input — nothing is filled.  (On the empty input no output is produced;
that failure is claim C5.) -/
theorem C8_period_zero (arr out : List Val)
    (hout : fill_nans_around arr 0 = some out) : out = arr := by
  cases arr with
  | nil => rw [fill_nans_around_nil] at hout; cases hout
  | cons v rest =>
    rw [fill_eq_foldl v rest 0] at hout
    have hfix : ∀ (R : List (Nat × Nat)) (a : List Val),
        R.foldl (fillRun ((v :: rest) : List Val).length 0) a = a := by
      intro R
      induction R with
      | nil => intro a; rfl
      | cons r R ih =>
        intro a
        rw [List.foldl_cons, fillRun_zero, ih]
    rw [hfix] at hout
    exact (Option.some.inj hout).symm

/-- C8, witness: fill with period `0` on `[4, NaN]` succeeds and returns the
input unchanged. -/
theorem C8_witness : ([some 4, none] : List Val) = [some 4, none] :=
  C8_period_zero [some 4, none] [some 4, none] (by decide)

/-- C9: for every maximal missing run `[s, e)` touching neither boundary and
every period `p ≥ 0`: if the run length is exactly `2 * p`, every position of
the run is filled; if it is exactly `2 * p + 1`, exactly one position (namely
`s + p`) remains missing. -/
theorem C9_exact_fill (arr out : List Val) (p s e : Nat)
    (hout : fill_nans_around arr (p : Int) = some out)
    (hrun : IsMaxRun arr s e) (hs : 0 < s) (he : e < arr.length) :
    (e - s = 2 * p → ∀ i, s ≤ i → i < e → (out.getD i none).isSome = true) ∧
    (e - s = 2 * p + 1 → ∀ i, s ≤ i → i < e → (out.getD i none = none ↔ i = s + p)) := by
  have hchar := fill_run_char arr out p hout s e hrun
  obtain ⟨hse, hlen, helem, hbl, hbr⟩ := hrun
  have hlenE : e ≤ arr.length := by simpa using hlen
  have hmaskL : (arr.map isnan).getD (s - 1) false = false := by
    rcases hbl with h0 | hf
    · omega
    · exact hf
  have hmaskR : (arr.map isnan).getD e false = false := by
    rcases hbr with h0 | hf
    · exfalso
      simp at h0
      omega
    · exact hf
  have hvL : arr.getD (s - 1) none ≠ none := by
    intro hcon
    have hh := getD_map_isnan arr (s - 1) (by omega)
    rw [hmaskL, hcon] at hh
    simp [isnan] at hh
  have hvR : arr.getD e none ≠ none := by
    intro hcon
    have hh := getD_map_isnan arr e (by omega)
    rw [hmaskR, hcon] at hh
    simp [isnan] at hh
  constructor
  · intro hL i h1 h2
    rw [hchar i h1 h2]
    by_cases hi : i < s + p
    · rw [intendedAt_eq_left arr p s e i ⟨by omega, by omega⟩]
      cases hcase : arr.getD (s - 1) none with
      | none => exact absurd hcase hvL
      | some k => rfl
    · rw [intendedAt_eq_right arr p s e i (by omega) ⟨by omega, by omega⟩]
      cases hcase : arr.getD e none with
      | none => exact absurd hcase hvR
      | some k => rfl
  · intro hL i h1 h2
    rw [hchar i h1 h2]
    rcases Nat.lt_trichotomy i (s + p) with hi | hi | hi
    · rw [intendedAt_eq_left arr p s e i ⟨by omega, by omega⟩]
      constructor
      · intro hcon
        exact absurd hcon hvL
      · intro hcon
        omega
    · rw [intendedAt_eq_none arr p s e i (by omega) (by omega)]
      constructor
      · intro _
        omega
      · intro _
        rfl
    · rw [intendedAt_eq_right arr p s e i (by omega) ⟨by omega, by omega⟩]
      constructor
      · intro hcon
        exact absurd hcon hvR
      · intro hcon
        omega

/-- C9, witness: run `[1, 3)` of `[1, NaN, NaN, 2]` with period `1`
(length `2 = 2 * 1`) is fully filled, and in run `[1, 4)` of
`[1, NaN, NaN, NaN, 2]` with period `1` (length `3 = 2 * 1 + 1`) the single
residual missing position is `2 = 1 + 1`. -/
theorem C9_witness :
    (([some 1, some 1, some 2, some 2] : List Val).getD 1 none).isSome = true ∧
    (([some 1, some 1, none, some 2, some 2] : List Val).getD 2 none = none ↔ 2 = 1 + 1) := by
  have hA := C9_exact_fill [some 1, none, none, some 2]
    [some 1, some 1, some 2, some 2] 1 1 3 (by decide) (by decide) (by decide) (by decide)
  have hB := C9_exact_fill [some 1, none, none, none, some 2]
    [some 1, some 1, none, some 2, some 2] 1 1 4 (by decide) (by decide) (by decide)
    (by decide)
  exact ⟨hA.1 (by decide) 1 (by decide) (by decide),
    hB.2 (by decide) 2 (by decide) (by decide)⟩

/-- C10: for every detected maximal missing run `[s, e)` of a non-empty
sequence and every non-negative period, the index range filled from the
right neighbor (`[leftSliceLo, e)`) and the one filled from the left
neighbor (`[s, rightSliceHi)`) are both contained in `[s, e)` and disjoint,
so no position is written twice and the two slice assignments commute. -/
theorem C10_ranges (arr : List Val) (p : Nat) (s e : Nat)
    (hne : arr ≠ []) (hrun : IsMaxRun arr s e) :
    (s : Int) ≤ leftSliceLo (p : Int) (s, e) ∧
    leftSliceLo (p : Int) (s, e) ≤ (e : Int) ∧
    rightSliceHi (p : Int) (s, e) ≤ (e : Int) ∧
    rightSliceHi (p : Int) (s, e) ≤ leftSliceLo (p : Int) (s, e) ∧
    ∀ (x : List Val) (u w : Val),
      setSlice (setSlice x (leftSliceLo (p : Int) (s, e)) (e : Int) u) (s : Int)
          (rightSliceHi (p : Int) (s, e)) w =
        setSlice (setSlice x (s : Int) (rightSliceHi (p : Int) (s, e)) w)
          (leftSliceLo (p : Int) (s, e)) (e : Int) u := by
  obtain ⟨hse, -, -, -, -⟩ := hrun
  have hm1 : min p ((e - s) / 2) ≤ (e - s) / 2 := Nat.min_le_right _ _
  have hm2 : min p ((e - s) / 2 + (e - s) % 2) ≤ (e - s) / 2 + (e - s) % 2 :=
    Nat.min_le_right _ _
  have hcastL : leftSliceLo (p : Int) (s, e) = ((e - min p ((e - s) / 2) : Nat) : Int) := by
    unfold leftSliceLo
    dsimp only
    rw [← Nat.cast_min]
    omega
  have hcastR : rightSliceHi (p : Int) (s, e) =
      ((s + min p ((e - s) / 2 + (e - s) % 2) : Nat) : Int) := by
    unfold rightSliceHi
    dsimp only
    rw [← Nat.cast_min]
    omega
  rw [hcastL, hcastR]
  refine ⟨by omega, by omega, by omega, by omega, ?_⟩
  intro x u w
  apply setSlice_comm
  left
  rw [sliceIdx_natCast, sliceIdx_natCast]
  omega

/-- C10, witness: the range facts and the commutation of the two slice
assignments for the run `[1, 2)` of `[1, NaN, 2]` with period `1`, the
commutation instantiated on the concrete array `[7, NaN, 8]`. -/
theorem C10_witness :
    ((1 : Nat) : Int) ≤ leftSliceLo ((1 : Nat) : Int) (1, 2) ∧
    leftSliceLo ((1 : Nat) : Int) (1, 2) ≤ ((2 : Nat) : Int) ∧
    rightSliceHi ((1 : Nat) : Int) (1, 2) ≤ ((2 : Nat) : Int) ∧
    rightSliceHi ((1 : Nat) : Int) (1, 2) ≤ leftSliceLo ((1 : Nat) : Int) (1, 2) ∧
    setSlice (setSlice [some 7, none, some 8] (leftSliceLo ((1 : Nat) : Int) (1, 2))
        ((2 : Nat) : Int) (some 9)) ((1 : Nat) : Int)
        (rightSliceHi ((1 : Nat) : Int) (1, 2)) (some 6) =
      setSlice (setSlice [some 7, none, some 8] ((1 : Nat) : Int)
          (rightSliceHi ((1 : Nat) : Int) (1, 2)) (some 6))
        (leftSliceLo ((1 : Nat) : Int) (1, 2)) ((2 : Nat) : Int) (some 9) := by
  have h := C10_ranges [some 1, none, some 2] 1 1 2 (by decide) (by decide)
  exact ⟨h.1, h.2.1, h.2.2.1, h.2.2.2.1, h.2.2.2.2 [some 7, none, some 8] (some 9) (some 6)⟩
